import Mathlib

/-!
Verification of the s3fs transport engine header (`src/curl.h`): embedding and verification

The header `curl.h` defines, inline, the part descriptor `filepart`
(constructor, `clear`, `add_etag_list`), the capacity test
`BodyData::IsSafeSize`, the `BodyData` constructor and `size()`, the key
comparator `case_insensitive_compare_func` and `S3fsCurl::IsSetAccessKeyId`.
Those are embedded from their bodies.  Member functions that the header only
declares (`BodyData::Append`, `Resize`, `Clear`, `str`, and the scheduler
`S3fsMultiCurl`) are modelled from the design description and marked so.

Conventions
* `std::string` is a sequence of bytes: `List (Fin 256)`.
* `size_t` is a natural number below `2 ^ 64`; `int` is an integer in
  `[-2 ^ 31, 2 ^ 31)`; arithmetic that can leave the range is reduced explicitly.
* a pointer is `Option`: `none` is `NULL`.
-/

namespace S3fs

/-! ## Basic types -/

/-- One `char` of a `std::string`, read as `unsigned char`. -/
abbrev byte := Fin 256

/-- The contents of a `std::string`. -/
abbrev std_string := List byte

/-- Number of values of `size_t` (64-bit target). -/
def SIZE_MOD : Nat := 2 ^ 64

/-- Conversion of a `size_t` value to `int`: reduction modulo `2 ^ 32` read in
two's complement. -/
def size_t_to_int (n : Nat) : Int :=
  if n % 2 ^ 32 < 2 ^ 31 then ((n % 2 ^ 32 : Nat) : Int)
  else ((n % 2 ^ 32 : Nat) : Int) - 2 ^ 32

/-! ## `etaglist_t` and `filepart` (curl.h:42-83) -/

/-- The type `typedef std::vector<std::string> etaglist_t`. -/
abbrev etaglist_t := List std_string

/-- The `etaglist_t` objects alive in memory.  An `etaglist_t*` is `none`
(`NULL`) or `some a`, the position of the object it points to. -/
abbrev Store := List etaglist_t

/-- The struct `filepart`, field by field. -/
structure filepart where
  uploaded : Bool
  etag : std_string
  fd : Int
  startpos : Int
  size : Int
  etaglist : Option Nat
  etagpos : Int
deriving DecidableEq, Repr

namespace filepart

/-- The constructor `filepart()`: `uploaded(false), fd(-1), startpos(0),
size(-1), etaglist(NULL), etagpos(-1)`; `etag` is default-constructed. -/
def new : filepart :=
  { uploaded := false, etag := [], fd := -1, startpos := 0, size := -1,
    etaglist := none, etagpos := -1 }

/-- The method `void clear(bool isfree = true)`: seven assignments to the
fields; the argument is not read and the list pointed to is not touched. -/
def clear (st : Store) (_self : filepart) (_isfree : Bool) : Store × filepart :=
  (st, { uploaded := false, etag := [], fd := -1, startpos := 0, size := -1,
         etaglist := none, etagpos := -1 })

/-- The method `void add_etag_list(etaglist_t* list)`.  With a non-null `list`:
`list->push_back(std::string(""))`, `etaglist = list`,
`etagpos = list->size() - 1` (a `size_t` difference stored in an `int`).
With `NULL`: `etaglist = NULL`, `etagpos = -1`.  The result is `none` when
`list` points to no live object (the call has no defined behaviour). -/
def add_etag_list (st : Store) (self : filepart) (list : Option Nat) :
    Option (Store × filepart) :=
  match list with
  | some a =>
    match st[a]? with
    | some l =>
      let l1 := l ++ [([] : std_string)]
      some (st.set a l1,
        { self with
          etaglist := some a
          etagpos := size_t_to_int ((l1.length + SIZE_MOD - 1) % SIZE_MOD) })
    | none => none
  | none => some (st, { self with etaglist := none, etagpos := -1 })

end filepart

/-- Part descriptors call `add_etag_list(list)` one after the other, in list
order, on the same `etaglist_t` object. -/
def reserve_slots (list : Nat) : Store → List filepart → Option (Store × List filepart)
  | st, [] => some (st, [])
  | st, p :: ps =>
    match p.add_etag_list st (some list) with
    | none => none
    | some (st1, p1) =>
      match reserve_slots list st1 ps with
      | none => none
      | some (st2, ps2) => some (st2, p1 :: ps2)

/-- Modelled from the spec: the completion write of one part (the body of
`UploadMultipartPostCallback`, declared at curl.h:166, is not in the header).
"On success, the returned integrity token is written into the part's reserved
ETag List slot": the token is stored at index `etagpos` of the list `etaglist`
points to.  A null `etaglist` or an index outside the list gives `none`
(`std::vector::at` throws). -/
def write_etag (st : Store) (p : filepart) (token : std_string) : Option Store :=
  match p.etaglist with
  | none => none
  | some a =>
    match st[a]? with
    | none => none
    | some l =>
      if 0 ≤ p.etagpos ∧ p.etagpos.toNat < l.length then
        some (st.set a (l.set p.etagpos.toNat token))
      else none

/-- Parts complete in the order `order` (positions in `parts`; the part at
position `i` has part number `i + 1`); each completion writes `token (i + 1)`
with `write_etag`. -/
def complete_parts (parts : List filepart) (token : Nat → std_string) :
    Store → List Nat → Option Store
  | st, [] => some st
  | st, i :: rest =>
    match parts[i]? with
    | none => none
    | some p =>
      match write_etag st p (token (i + 1)) with
      | none => none
      | some st1 => complete_parts parts token st1 rest

/-- Shape of the descriptors after reservation: descriptor `k` points to the
list `a` and holds index `m + k`. -/
def reserved_at (a m : Nat) (ps : List filepart) : Prop :=
  ∀ k : Nat, k < ps.length →
    ∃ p, ps[k]? = some p ∧ p.etaglist = some a ∧ p.etagpos = ((m + k : Nat) : Int)

/-- Token used in the worked examples: the one-byte string `k`. -/
def sample_token (k : Nat) : std_string := [Fin.ofNat k]

/-! ## `BodyData` (curl.h:9-37) -/

/-- The class `BodyData`: `text` is `NULL` or the allocated storage, `lastpos`
the used length, `bufsize` the capacity. -/
structure BodyData where
  text : Option (List byte)
  lastpos : Nat
  bufsize : Nat
deriving DecidableEq, Repr

namespace BodyData

/-- The constructor `BodyData() : text(NULL), lastpos(0), bufsize(0)`. -/
def new : BodyData := { text := none, lastpos := 0, bufsize := 0 }

/-- The method `IsSafeSize`:
`return ((lastpos + addbytes + 1) > bufsize ? false : true);`
with the sum computed in `size_t`. -/
def IsSafeSize (self : BodyData) (addbytes : Nat) : Bool :=
  if (self.lastpos + addbytes + 1) % SIZE_MOD > self.bufsize then false else true

/-- The method `size_t size() const { return lastpos; }`. -/
def size (self : BodyData) : Nat := self.lastpos

/-- Modelled from the spec: `BodyData::Clear` (declared at curl.h:28, body not
in the header).  "`Clear()` releases storage and resets to empty." -/
def Clear (_self : BodyData) : BodyData := { text := none, lastpos := 0, bufsize := 0 }

/-- Modelled from the spec: `BodyData::Resize` (declared at curl.h:20, body not
in the header).  "If remaining capacity is insufficient, grows to
`max(needed, capacity*2)`, preserving existing content ... Fails if
reallocation cannot satisfy the request."  Sufficiency is the header's
`IsSafeSize`; `needed` is the used length plus the new bytes plus the
terminator; sizes are `size_t`.  `realloc_ok n` tells whether the allocator
grants `n` bytes; bytes of the new storage beyond the old content read `0`.
The flag is the `bool` result. -/
def Resize (realloc_ok : Nat → Bool) (self : BodyData) (addbytes : Nat) : BodyData × Bool :=
  if self.IsSafeSize addbytes then (self, true)
  else
    let needed := (self.lastpos + addbytes + 1) % SIZE_MOD
    let newsize := max needed ((self.bufsize * 2) % SIZE_MOD)
    if realloc_ok newsize then
      ({ self with
          text := some (((self.text.getD []) ++ List.replicate newsize 0).take newsize)
          bufsize := newsize }, true)
    else (self, false)

/-- Modelled from the spec: `BodyData::Append(void* ptr, size_t bytes)`
(declared at curl.h:29, body not in the header), with the block `ptr` points to
given as its bytes.  "If remaining capacity is insufficient, grows ...; copies
new bytes; advances used length; maintains a trailing terminator.  Fails if
reallocation cannot satisfy the request."  The flag is the `bool` result; the
state is unchanged when it is false.  The result is `none` when the copy and
the terminator would be written outside the storage (no defined behaviour). -/
def Append (realloc_ok : Nat → Bool) (self : BodyData) (block : List byte) :
    Option (BodyData × Bool) :=
  match Resize realloc_ok self block.length with
  | (b, false) => some (b, false)
  | (b, true) =>
    match b.text with
    | none => none
    | some t =>
      if b.lastpos + block.length + 1 ≤ t.length then
        some ({ b with
                text := some (t.take b.lastpos ++ block ++ [0] ++
                  t.drop (b.lastpos + block.length + 1))
                lastpos := (b.lastpos + block.length) % SIZE_MOD }, true)
      else none

/-- Modelled from the spec: `BodyData::str()` (declared at curl.h:33, body not
in the header).  "`str()`/`size()` expose a read view; an empty buffer yields an
empty string, never a null reference."  The result is the returned pointer:
`none` would be `NULL`, `some t` the bytes it points to; the empty C string is
the lone terminator. -/
def str (self : BodyData) : Option (List byte) :=
  match self.text with
  | none => some [0]
  | some t => some t

/-- A sequence of blocks is appended in order; the result is `none` as soon as
one `Append` does not return true. -/
def AppendAll (realloc_ok : Nat → Bool) : BodyData → List (List byte) → Option BodyData
  | b, [] => some b
  | b, block :: rest =>
    match Append realloc_ok b block with
    | some (b1, true) => AppendAll realloc_ok b1 rest
    | _ => none

end BodyData

/-- The buffer `b` holds `content`: either nothing is allocated and `content`
is empty, or the storage has `bufsize < 2^64` bytes, starts with `content` and
has the terminator right after it. -/
def BodyHolds (b : BodyData) (content : List byte) : Prop :=
  b.lastpos = content.length ∧
  ((b.text = none ∧ b.bufsize = 0 ∧ content = []) ∨
   (∃ t, b.text = some t ∧ t.length = b.bufsize ∧ b.bufsize < 2 ^ 64 ∧
      content.length + 1 ≤ b.bufsize ∧ t.take content.length = content ∧
      t[content.length]? = some 0))

/-- An operation a client performs on a `BodyData`. -/
inductive BodyOp where
  | append (block : List byte)
  | clear
deriving DecidableEq, Repr

/-- The state after a sequence of `Append` (whatever each returns) and `Clear`
calls; `none` when a call has no defined behaviour. -/
def run_ops (realloc_ok : Nat → Bool) : BodyData → List BodyOp → Option BodyData
  | b, [] => some b
  | b, BodyOp.append block :: rest =>
    match BodyData.Append realloc_ok b block with
    | some (b1, _) => run_ops realloc_ok b1 rest
    | none => none
  | b, BodyOp.clear :: rest => run_ops realloc_ok b.Clear rest

/-! ## `case_insensitive_compare_func` (curl.h:86-92) -/

/-- The C library function `tolower` in the "C" locale, on the value of an
`unsigned char`: the letters `A`..`Z` (65..90) move to `a`..`z`. -/
def tolower (c : Nat) : Nat := if 65 ≤ c ∧ c ≤ 90 then c + 32 else c

/-- The C library function `strcasecmp(a.c_str(), b.c_str())` (POSIX, "C"
locale).  The two byte sequences are read in step; the end of a `std::string`
reads as the terminator `0` that `c_str()` supplies.  The result is the
difference of the first pair of lowered bytes that differ, and `0` when the
terminator is reached in the first string with no difference found. -/
def strcasecmp : std_string → std_string → Int
  | [], b => 0 - (tolower (b.headD 0).val : Int)
  | c :: a, b =>
    if (tolower c.val : Int) - (tolower (b.headD 0).val : Int) ≠ 0 then
      (tolower c.val : Int) - (tolower (b.headD 0).val : Int)
    else if c.val = 0 then 0
    else strcasecmp a b.tail

/-- The call operator of `case_insensitive_compare_func`:
`return strcasecmp(a.c_str(), b.c_str()) < 0;` -/
def case_insensitive_compare_func (a b : std_string) : Bool :=
  decide (strcasecmp a b < 0)

/-- Two bytes are equal or are the upper-case and lower-case form of the same
ASCII letter. -/
def same_letter_up_to_case (x y : byte) : Prop :=
  x = y ∨ (65 ≤ x.val ∧ x.val ≤ 90 ∧ y.val = x.val + 32) ∨
    (65 ≤ y.val ∧ y.val ≤ 90 ∧ x.val = y.val + 32)

instance (x y : byte) : Decidable (same_letter_up_to_case x y) := by
  unfold same_letter_up_to_case
  infer_instance

/-- Two strings differ only in ASCII letter case: same length, and position by
position the bytes are `same_letter_up_to_case`. -/
def differ_only_in_case (a b : std_string) : Prop :=
  List.Forall₂ same_letter_up_to_case a b

/-! ## `S3fsCurl::IsSetAccessKeyId` (curl.h:206) -/

/-- The class method `IsSetAccessKeyId`, as a function of the two static
members it reads:
`return (0 < AWSAccessKeyId.size() && 0 < AWSSecretAccessKey.size());` -/
def IsSetAccessKeyId (AWSAccessKeyId AWSSecretAccessKey : std_string) : Bool :=
  decide (0 < AWSAccessKeyId.length) && decide (0 < AWSSecretAccessKey.length)

/-! ## `S3fsMultiCurl` (curl.h:250-282) -/

/-- The type `typedef std::map<CURL*, S3fsCurl*> s3fscurlmap_t`: the entries
`(handle, request)` of the map, with pairwise distinct handles.  A `CURL*` and
an `S3fsCurl*` are addresses. -/
abbrev s3fscurlmap_t := List (Nat × Nat)

/-- The handles registered in a map. -/
def map_keys (m : s3fscurlmap_t) : List Nat := m.map Prod.fst

/-- The assignment `m[hCurl] = s3fscurl`: replaces the entry of a registered
handle, adds an entry otherwise. -/
def map_assign (m : s3fscurlmap_t) (hCurl s3fscurl : Nat) : s3fscurlmap_t :=
  if hCurl ∈ map_keys m then m.map (fun e => if e.1 = hCurl then (hCurl, s3fscurl) else e)
  else m ++ [(hCurl, s3fscurl)]

/-- The call `m.erase(hCurl)`. -/
def map_erase (m : s3fscurlmap_t) (hCurl : Nat) : s3fscurlmap_t :=
  m.filter (fun e => decide (e.1 ≠ hCurl))

/-- The two registries of the class `S3fsMultiCurl`: `cMap_all` ("all of curl
requests") and `cMap_req` ("curl requests are sent").  The multi handle and the
two callbacks hold no registry data; what the callbacks decide arrives as the
`Outcome` of a completion. -/
structure S3fsMultiCurl where
  cMap_all : s3fscurlmap_t
  cMap_req : s3fscurlmap_t
deriving DecidableEq, Repr

/-- How a finished exchange is classified: success, failure with a replacement
request prepared by the retry callback, or permanent failure. -/
inductive Outcome where
  | success
  | retry (hCurl s3fscurl : Nat)
  | failure
deriving DecidableEq, Repr

namespace S3fsMultiCurl

/-- A scheduler that holds no request: both maps are default-constructed. -/
def new : S3fsMultiCurl := { cMap_all := [], cMap_req := [] }

/-- Modelled from the spec: first half of `Submit`, "adds to all". -/
def register (self : S3fsMultiCurl) (hCurl s3fscurl : Nat) : S3fsMultiCurl :=
  { self with cMap_all := map_assign self.cMap_all hCurl s3fscurl }

/-- Modelled from the spec: second half of `Submit`, "while |active| <
max_concurrency, promotes to active and dispatches".  `max_multireq` is the
static `int` member of that name. -/
def promote (max_multireq : Int) (self : S3fsMultiCurl) (hCurl s3fscurl : Nat) :
    S3fsMultiCurl :=
  if (self.cMap_req.length : Int) < max_multireq then
    { self with cMap_req := map_assign self.cMap_req hCurl s3fscurl }
  else self

/-- Modelled from the spec: `S3fsMultiCurl::SetS3fsCurlObject` (declared at
curl.h:280, body not in the header).  "`Submit(context)` adds to all and, while
|active| < max_concurrency, promotes to active and dispatches." -/
def SetS3fsCurlObject (max_multireq : Int) (self : S3fsMultiCurl) (hCurl s3fscurl : Nat) :
    S3fsMultiCurl :=
  promote max_multireq (register self hCurl s3fscurl) hCurl s3fscurl

/-- Modelled from the spec: "if backlog remains and a slot is free, promote the
next queued context".  The backlog is what is registered and not active. -/
def promote_next (max_multireq : Int) (self : S3fsMultiCurl) : S3fsMultiCurl :=
  match self.cMap_all.filter (fun e => decide (e.1 ∉ map_keys self.cMap_req)) with
  | [] => self
  | e :: _ => promote max_multireq self e.1 e.2

/-- Modelled from the spec: the states the scheduler goes through when the
active exchange `hCurl` finishes (step (c) of the drive loop).  "Remove from
active, classify status, and invoke either the success hook or the retry hook
... a freshly prepared replacement context (re-submitted) ... After each
retirement, if backlog remains and a slot is free, promote the next queued
context."  The finished exchange also leaves `all` (the loop ends when `all` is
empty).  In order: removed from active; removed from all; replacement added to
all; replacement promoted; next queued context promoted. -/
def retire_states (max_multireq : Int) (self : S3fsMultiCurl) (hCurl : Nat) (o : Outcome) :
    List S3fsMultiCurl :=
  let s1 := { self with cMap_req := map_erase self.cMap_req hCurl }
  let s2 := { s1 with cMap_all := map_erase s1.cMap_all hCurl }
  let s3 := match o with
    | Outcome.retry h2 c2 => register s2 h2 c2
    | _ => s2
  let s4 := match o with
    | Outcome.retry h2 c2 => promote max_multireq s3 h2 c2
    | _ => s3
  [s1, s2, s3, s4, promote_next max_multireq s4]

/-- The state after the retirement: the last of `retire_states`. -/
def retire (max_multireq : Int) (self : S3fsMultiCurl) (hCurl : Nat) (o : Outcome) :
    S3fsMultiCurl :=
  (retire_states max_multireq self hCurl o).getLastD self

/-- Modelled from the spec: `S3fsMultiCurl::Request` (declared at curl.h:281,
body not in the header), as the list of states the drive loop goes through.
`completions` is what the transport reports, in order: which exchange finished
and how it was classified.  "The loop terminates when all is empty"; a report
about a handle that is not active retires nothing. -/
def Request_states (max_multireq : Int) :
    S3fsMultiCurl → List (Nat × Outcome) → List S3fsMultiCurl
  | _, [] => []
  | s, (hCurl, o) :: rest =>
    if s.cMap_all = [] then []
    else if hCurl ∈ map_keys s.cMap_req then
      retire_states max_multireq s hCurl o ++
        Request_states max_multireq (retire max_multireq s hCurl o) rest
    else Request_states max_multireq s rest

end S3fsMultiCurl

/-- A call a client makes on the scheduler. -/
inductive Call where
  | submit (hCurl s3fscurl : Nat)
  | request (completions : List (Nat × Outcome))
deriving Repr

/-- The states a call goes through, the last one being the state it returns
in. -/
def call_states (max_multireq : Int) (s : S3fsMultiCurl) : Call → List S3fsMultiCurl
  | Call.submit h c => [s.register h c, s.SetS3fsCurlObject max_multireq h c]
  | Call.request completions => S3fsMultiCurl.Request_states max_multireq s completions

/-- Every state observed during a sequence of calls, starting with `s`. -/
def observed (max_multireq : Int) : S3fsMultiCurl → List Call → List S3fsMultiCurl
  | s, [] => [s]
  | s, c :: cs =>
    s :: ((call_states max_multireq s c).dropLast ++
      observed max_multireq ((call_states max_multireq s c).getLastD s) cs)

/-- The registry invariant: active handles are registered, and at most
`max_multireq` are active. -/
def registry_ok (max_multireq : Int) (s : S3fsMultiCurl) : Prop :=
  (∀ h ∈ map_keys s.cMap_req, h ∈ map_keys s.cMap_all) ∧
  (s.cMap_req.length : Int) ≤ max_multireq

/-- The run of the worked example: five part requests are submitted, then the
drive loop sees part 2 succeed, part 1 fail with the replacement request
`(6, 60)`, and the others succeed. -/
def five_parts_run : List Call :=
  [Call.submit 1 10, Call.submit 2 20, Call.submit 3 30, Call.submit 4 40, Call.submit 5 50,
   Call.request [(2, Outcome.success), (1, Outcome.retry 6 60), (3, Outcome.success),
     (4, Outcome.success), (5, Outcome.success), (6, Outcome.success)]]

/-! # Theorems -/

/-! ## Part descriptors and the shared ETag list -/

theorem size_t_to_int_small (n : Nat) (h : n < 2 ^ 31) : size_t_to_int n = (n : Int) := by
  have h1 : n % 2 ^ 32 = n := Nat.mod_eq_of_lt (by omega)
  unfold size_t_to_int
  rw [h1, if_pos h]

theorem add_etag_list_eq (st : Store) (p : filepart) (a : Nat) (L : etaglist_t)
    (hL : st[a]? = some L) (hlen : L.length < 2 ^ 31) :
    p.add_etag_list st (some a) =
      some (st.set a (L ++ [[]]),
        { p with etaglist := some a, etagpos := (L.length : Int) }) := by
  have h1 : ((L ++ [([] : std_string)]).length + SIZE_MOD - 1) % SIZE_MOD = L.length := by
    simp only [List.length_append, List.length_singleton, SIZE_MOD]
    omega
  simp only [filepart.add_etag_list, hL, h1, size_t_to_int_small L.length hlen]

theorem store_get_set_self (st : Store) (a : Nat) (L L1 : etaglist_t)
    (hL : st[a]? = some L) : (st.set a L1)[a]? = some L1 := by
  have ha : a < st.length := by
    rcases Nat.lt_or_ge a st.length with h | h
    · exact h
    · rw [List.getElem?_eq_none h] at hL
      exact absurd hL (by simp)
  exact List.getElem?_set_self ha

theorem add_etag_list_at_int_limit (L : etaglist_t) (p : filepart)
    (h : L.length = 2 ^ 31) :
    (filepart.add_etag_list [L] p (some 0)).map
      (fun r => (r.1[0]?.map List.length, r.2.etagpos)) =
    some (some (2 ^ 31 + 1), -2 ^ 31) := by
  have h1 : (2 ^ 31 + 1 + SIZE_MOD - 1) % SIZE_MOD = 2 ^ 31 := by decide
  have h2 : size_t_to_int (2 ^ 31) = -2 ^ 31 := by decide
  have h3 : (L ++ [([] : std_string)]).length = 2 ^ 31 + 1 := by
    simp only [List.length_append, List.length_singleton, h]
  simp only [filepart.add_etag_list, List.getElem?_cons_zero, h1, h2, Option.map_some',
    List.set_cons_zero, h3]

theorem reserve_slots_spec (a : Nat) (parts : List filepart) :
    ∀ (st : Store) (L : etaglist_t), st[a]? = some L →
      L.length + parts.length ≤ 2 ^ 31 →
      ∃ st1 ps, reserve_slots a st parts = some (st1, ps) ∧
        st1[a]? = some (L ++ List.replicate parts.length []) ∧
        ps.length = parts.length ∧ reserved_at a L.length ps := by
  induction parts with
  | nil =>
    intro st L hL _
    refine ⟨st, [], rfl, by simpa using hL, rfl, ?_⟩
    intro k hk
    simp at hk
  | cons p rest ih =>
    intro st L hL hlen
    simp only [List.length_cons] at hlen
    have hadd := add_etag_list_eq st p a L hL (by omega)
    have hst1 := store_get_set_self st a L (L ++ [[]]) hL
    obtain ⟨st2, ps2, hres, hget, hlen2, hpos⟩ :=
      ih (st.set a (L ++ [[]])) (L ++ [[]]) hst1
        (by simp only [List.length_append, List.length_singleton]; omega)
    refine ⟨st2, { p with etaglist := some a, etagpos := (L.length : Int) } :: ps2,
      ?_, ?_, ?_, ?_⟩
    · simp only [reserve_slots, hadd, hres]
    · rw [hget]
      simp [List.replicate_succ]
    · simp [hlen2]
    · intro k hk
      cases k with
      | zero =>
        exact ⟨{ p with etaglist := some a, etagpos := (L.length : Int) },
          by simp, rfl, by simp⟩
      | succ j =>
        simp only [List.length_cons] at hk
        obtain ⟨q, hq, hq1, hq2⟩ := hpos j (by omega)
        refine ⟨q, by simpa using hq, hq1, ?_⟩
        rw [hq2]
        simp only [List.length_append, List.length_singleton]
        congr 1
        omega

theorem write_etag_eq (st : Store) (p : filepart) (tok : std_string) (a i : Nat)
    (l : etaglist_t) (hp : p.etaglist = some a) (hi : p.etagpos = (i : Int))
    (hl : st[a]? = some l) (hlt : i < l.length) :
    write_etag st p tok = some (st.set a (l.set i tok)) := by
  have h1 : (0 : Int) ≤ (i : Int) ∧ ((i : Int)).toNat < l.length := by
    refine ⟨Int.ofNat_nonneg i, ?_⟩
    simpa using hlt
  simp only [write_etag, hp, hl, hi]
  rw [if_pos h1]
  simp

theorem complete_parts_spec (ps : List filepart) (token : Nat → std_string) (a n : Nat)
    (order : List Nat) :
    ∀ (st : Store) (l : etaglist_t), st[a]? = some l → l.length = n →
      (∀ i ∈ order, i < n ∧ ∃ p, ps[i]? = some p ∧ p.etaglist = some a ∧
        p.etagpos = (i : Int)) →
      ∃ st2 l2, complete_parts ps token st order = some st2 ∧ st2[a]? = some l2 ∧
        l2.length = n ∧ (∀ i ∈ order, l2[i]? = some (token (i + 1))) ∧
        (∀ j : Nat, j ∉ order → l2[j]? = l[j]?) := by
  induction order with
  | nil =>
    intro st l hl hn _
    exact ⟨st, l, rfl, hl, hn, by simp, fun _ _ => rfl⟩
  | cons i rest ih =>
    intro st l hl hn hord
    obtain ⟨hin, p, hp, hpa, hpi⟩ := hord i (List.mem_cons_self i rest)
    have hw := write_etag_eq st p (token (i + 1)) a i l hpa hpi hl (by omega)
    have hst1 := store_get_set_self st a l (l.set i (token (i + 1))) hl
    obtain ⟨st2, l2, hc, hg, hlen, hin2, hout2⟩ :=
      ih (st.set a (l.set i (token (i + 1)))) (l.set i (token (i + 1))) hst1
        (by simp [hn]) (fun j hj => hord j (List.mem_cons_of_mem i hj))
    refine ⟨st2, l2, ?_, hg, hlen, ?_, ?_⟩
    · simp only [complete_parts, hp, hw, hc]
    · intro j hj
      by_cases hjr : j ∈ rest
      · exact hin2 j hjr
      · have hji : j = i := by
          rcases List.mem_cons.mp hj with h | h
          · exact h
          · exact absurd h hjr
        subst hji
        rw [hout2 j hjr]
        exact List.getElem?_set_self (by omega)
    · intro j hj
      have hji : i ≠ j := fun h => hj (h ▸ List.mem_cons_self i rest)
      have hjr : j ∉ rest := fun h => hj (List.mem_cons_of_mem i h)
      rw [hout2 j hjr]
      exact List.getElem?_set_ne hji

/-- C1: for `n ≥ 1` parts (`n < 2^31`), any tokens and any completion order
(a permutation of the parts): after the `n` descriptors reserve their slots on
one shared, initially empty ETag list in ascending part-number order, part `k`
holds `etagpos = k - 1`; after every part has written its token into slot
`etagpos`, the list read in index order is `[token 1, ..., token n]`. -/
theorem etag_list_in_upload_order (st : Store) (a : Nat) (parts : List filepart)
    (token : Nat → std_string) (order : List Nat)
    (hempty : st[a]? = some [])
    (hn1 : 1 ≤ parts.length) (hn : parts.length < 2 ^ 31)
    (horder : order.Perm (List.range parts.length)) :
    ∃ st1 ps st2, reserve_slots a st parts = some (st1, ps) ∧
      ps.length = parts.length ∧
      (∀ k : Nat, 1 ≤ k → k ≤ parts.length →
        (ps[k - 1]?).map (fun p => p.etagpos) = some ((k : Int) - 1)) ∧
      complete_parts ps token st1 order = some st2 ∧
      st2[a]? = some ((List.range parts.length).map (fun i => token (i + 1))) := by
  obtain ⟨st1, ps, hres, hget, hlen, hpos⟩ :=
    reserve_slots_spec a parts st [] hempty (by simp only [List.length_nil]; omega)
  have hord : ∀ i ∈ order, i < parts.length ∧ ∃ p, ps[i]? = some p ∧
      p.etaglist = some a ∧ p.etagpos = (i : Int) := by
    intro i hi
    have hlt : i < parts.length := List.mem_range.mp ((horder.mem_iff).mp hi)
    obtain ⟨p, hp, hpa, hpi⟩ := hpos i (by omega)
    exact ⟨hlt, p, hp, hpa, by simpa using hpi⟩
  obtain ⟨st2, l2, hc, hg, hl2, hin, _⟩ :=
    complete_parts_spec ps token a parts.length order st1
      ([] ++ List.replicate parts.length []) hget (by simp) hord
  refine ⟨st1, ps, st2, hres, hlen, ?_, hc, ?_⟩
  · intro k hk1 hkn
    obtain ⟨p, hp, _, hpi⟩ := hpos (k - 1) (by omega)
    rw [hp, Option.map_some', hpi]
    congr 1
    simp only [List.length_nil]
    omega
  · rw [hg]
    congr 1
    apply List.ext_getElem?
    intro i
    by_cases hi : i < parts.length
    · rw [hin i ((horder.mem_iff).mpr (List.mem_range.mpr hi))]
      simp [hi]
    · rw [List.getElem?_eq_none (by omega), List.getElem?_eq_none (by simp; omega)]

/-- Witness for C1: three parts, completion order 3, 1, 2. -/
theorem etag_list_in_upload_order_witness :
    ∃ st1 ps st2,
      reserve_slots 0 [[]] [filepart.new, filepart.new, filepart.new] = some (st1, ps) ∧
      ps.length = [filepart.new, filepart.new, filepart.new].length ∧
      (∀ k : Nat, 1 ≤ k → k ≤ [filepart.new, filepart.new, filepart.new].length →
        (ps[k - 1]?).map (fun p => p.etagpos) = some ((k : Int) - 1)) ∧
      complete_parts ps sample_token st1 [2, 0, 1] = some st2 ∧
      st2[0]? = some ((List.range [filepart.new, filepart.new, filepart.new].length).map
        (fun i => sample_token (i + 1))) :=
  etag_list_in_upload_order [[]] 0 [filepart.new, filepart.new, filepart.new]
    sample_token [2, 0, 1] rfl (by decide) (by decide) (by decide)

/-- C3 (counterexample): an ETag list pre-sized to the part count 3, followed
by the three reservations, ends with 6 slots, and parts 1, 2, 3 hold the
indices 3, 4, 5 instead of 0, 1, 2. -/
theorem presized_list_grows_counterexample :
    (reserve_slots 0 [[[], [], []]] [filepart.new, filepart.new, filepart.new]).map
      (fun r => (r.1[0]?.map List.length, r.2.map (fun p => p.etagpos))) =
    some (some 6, [3, 4, 5]) := by
  decide

/-- C3 (amended): when the ETag list holds `m` slots before any reservation,
the `n` reservations (`m + n ≤ 2^31`) leave it with exactly `m + n` slots, the
old ones followed by `n` empty ones, and the index reserved for part number `k`
is `m + k - 1`.  One slot per part and index `k - 1` is the case `m = 0`. -/
theorem reserve_slots_grows_by_part_count (st : Store) (a : Nat) (L : etaglist_t)
    (parts : List filepart) (hL : st[a]? = some L)
    (hlen : L.length + parts.length ≤ 2 ^ 31) :
    ∃ st1 ps L1, reserve_slots a st parts = some (st1, ps) ∧
      st1[a]? = some L1 ∧ L1 = L ++ List.replicate parts.length [] ∧
      L1.length = L.length + parts.length ∧
      ps.length = parts.length ∧
      (∀ k : Nat, 1 ≤ k → k ≤ parts.length →
        (ps[k - 1]?).map (fun p => p.etagpos) = some ((L.length : Int) + (k : Int) - 1)) := by
  obtain ⟨st1, ps, hres, hget, hlen1, hpos⟩ := reserve_slots_spec a parts st L hL hlen
  refine ⟨st1, ps, _, hres, hget, rfl, by simp, hlen1, ?_⟩
  intro k hk1 hkn
  obtain ⟨p, hp, _, hpi⟩ := hpos (k - 1) (by omega)
  rw [hp, Option.map_some', hpi]
  congr 1
  omega

/-- Witness for C3 (amended): an empty list and three parts. -/
theorem reserve_slots_grows_by_part_count_witness :
    ∃ st1 ps L1,
      reserve_slots 0 [[]] [filepart.new, filepart.new, filepart.new] = some (st1, ps) ∧
      st1[0]? = some L1 ∧
      L1 = [] ++ List.replicate [filepart.new, filepart.new, filepart.new].length [] ∧
      L1.length = ([] : etaglist_t).length + [filepart.new, filepart.new, filepart.new].length ∧
      ps.length = [filepart.new, filepart.new, filepart.new].length ∧
      (∀ k : Nat, 1 ≤ k → k ≤ [filepart.new, filepart.new, filepart.new].length →
        (ps[k - 1]?).map (fun p => p.etagpos) =
          some ((([] : etaglist_t).length : Int) + (k : Int) - 1)) :=
  reserve_slots_grows_by_part_count [[]] 0 [] [filepart.new, filepart.new, filepart.new]
    rfl (by decide)

/-- C6 (counterexample): on a list of `2^31` slots the call appends the slot
(the list then has `2^31 + 1` slots, the new last index is `2^31`) but
`etagpos` becomes `-2^31`: the index does not fit in the `int` field. -/
theorem add_etag_list_index_overflow_counterexample :
    (filepart.add_etag_list [List.replicate (2 ^ 31) []] filepart.new (some 0)).map
      (fun r => (r.1[0]?.map List.length, r.2.etagpos)) =
    some (some (2 ^ 31 + 1), -2 ^ 31) :=
  add_etag_list_at_int_limit (List.replicate (2 ^ 31) []) filepart.new
    (List.length_replicate (2 ^ 31) [])

/-- C6 (amended): for every non-null ETag list `L` with fewer than `2^31`
slots and every part descriptor, `add_etag_list(L)` appends exactly one
empty-string slot to `L` (so every slot already in `L` keeps its index and
token, and no other list changes), sets `etaglist` to `L` and `etagpos` to the
index of the new last slot, and leaves `uploaded`, `etag`, `fd`, `startpos`,
`size` unchanged. -/
theorem add_etag_list_appends_one_slot (st : Store) (p : filepart) (a : Nat)
    (L : etaglist_t) (hL : st[a]? = some L) (hlen : L.length < 2 ^ 31) :
    ∃ st1 p1 L1, p.add_etag_list st (some a) = some (st1, p1) ∧
      st1[a]? = some L1 ∧ L1 = L ++ [[]] ∧ L1.length = L.length + 1 ∧
      (∀ i : Nat, i < L.length → L1[i]? = L[i]?) ∧
      (∀ b : Nat, b ≠ a → st1[b]? = st[b]?) ∧
      p1.etaglist = some a ∧ p1.etagpos = ((L1.length : Int) - 1) ∧
      p1.uploaded = p.uploaded ∧ p1.etag = p.etag ∧ p1.fd = p.fd ∧
      p1.startpos = p.startpos ∧ p1.size = p.size := by
  refine ⟨_, _, L ++ [[]], add_etag_list_eq st p a L hL hlen,
    store_get_set_self st a L _ hL, rfl, by simp, ?_, ?_, rfl, by simp, rfl, rfl, rfl, rfl, rfl⟩
  · intro i hi
    exact List.getElem?_append_left hi
  · intro b hb
    exact List.getElem?_set_ne (Ne.symm hb)

/-- Witness for C6 (amended): a list already holding two tokens. -/
theorem add_etag_list_appends_one_slot_witness :
    ∃ st1 p1 L1,
      filepart.add_etag_list [[sample_token 7, sample_token 9]] filepart.new (some 0) =
        some (st1, p1) ∧
      st1[0]? = some L1 ∧ L1 = [sample_token 7, sample_token 9] ++ [[]] ∧
      L1.length = [sample_token 7, sample_token 9].length + 1 ∧
      (∀ i : Nat, i < [sample_token 7, sample_token 9].length →
        L1[i]? = [sample_token 7, sample_token 9][i]?) ∧
      (∀ b : Nat, b ≠ 0 → st1[b]? = [[sample_token 7, sample_token 9]][b]?) ∧
      p1.etaglist = some 0 ∧ p1.etagpos = ((L1.length : Int) - 1) ∧
      p1.uploaded = filepart.new.uploaded ∧ p1.etag = filepart.new.etag ∧
      p1.fd = filepart.new.fd ∧ p1.startpos = filepart.new.startpos ∧
      p1.size = filepart.new.size :=
  add_etag_list_appends_one_slot [[sample_token 7, sample_token 9]] filepart.new 0
    [sample_token 7, sample_token 9] rfl (by decide)

/-! ## The key comparator -/

theorem tolower_eq_zero_iff (n : Nat) : tolower n = 0 ↔ n = 0 := by
  unfold tolower
  by_cases h : 65 ≤ n ∧ n ≤ 90
  · rw [if_pos h]
    omega
  · rw [if_neg h]

/-- One step of `strcasecmp`, uniformly in the shape of the first string. -/
theorem strcasecmp_step (a b : std_string) :
    strcasecmp a b =
      if (tolower (a.headD 0).val : Int) - (tolower (b.headD 0).val : Int) ≠ 0 then
        (tolower (a.headD 0).val : Int) - (tolower (b.headD 0).val : Int)
      else if (a.headD 0).val = 0 then 0
      else strcasecmp a.tail b.tail := by
  cases a with
  | nil =>
    simp only [strcasecmp, List.headD_nil, Fin.val_zero, tolower]
    split_ifs <;> omega
  | cons c a => simp only [strcasecmp, List.headD_cons, List.tail_cons]

theorem strcasecmp_self (a : std_string) : strcasecmp a a = 0 := by
  induction a with
  | nil => simp [strcasecmp, tolower]
  | cons c a ih => simp [strcasecmp, ih]

theorem strcasecmp_swap (a : std_string) : ∀ b, strcasecmp b a = - strcasecmp a b := by
  induction a with
  | nil =>
    intro b
    rw [strcasecmp_step b [], strcasecmp_step [] b]
    have h := tolower_eq_zero_iff (b.headD 0).val
    simp only [List.headD_nil, Fin.val_zero, tolower]
    split_ifs <;> omega
  | cons c a ih =>
    intro b
    rw [strcasecmp_step b (c :: a), strcasecmp_step (c :: a) b]
    have h1 := tolower_eq_zero_iff (b.headD 0).val
    have h2 := tolower_eq_zero_iff c.val
    have h3 := ih b.tail
    simp only [List.headD_cons, List.tail_cons]
    split_ifs <;> omega

theorem strcasecmp_trans_lt (a : std_string) :
    ∀ b c, strcasecmp a b < 0 → strcasecmp b c < 0 → strcasecmp a c < 0 := by
  induction a with
  | nil =>
    intro b c
    rw [strcasecmp_step [] b, strcasecmp_step b c, strcasecmp_step [] c]
    have h1 := tolower_eq_zero_iff (b.headD 0).val
    have h2 := tolower_eq_zero_iff (c.headD 0).val
    simp only [List.headD_nil, Fin.val_zero, tolower]
    split_ifs <;> omega
  | cons x a ih =>
    intro b c
    rw [strcasecmp_step (x :: a) b, strcasecmp_step b c, strcasecmp_step (x :: a) c]
    have h1 := tolower_eq_zero_iff (b.headD 0).val
    have h2 := tolower_eq_zero_iff (c.headD 0).val
    have h3 := tolower_eq_zero_iff x.val
    have h4 := ih b.tail c.tail
    simp only [List.headD_cons, List.tail_cons]
    split_ifs <;> omega

theorem strcasecmp_trans_eq (a : std_string) :
    ∀ b c, strcasecmp a b = 0 → strcasecmp b c = 0 → strcasecmp a c = 0 := by
  induction a with
  | nil =>
    intro b c
    rw [strcasecmp_step [] b, strcasecmp_step b c, strcasecmp_step [] c]
    have h1 := tolower_eq_zero_iff (b.headD 0).val
    have h2 := tolower_eq_zero_iff (c.headD 0).val
    simp only [List.headD_nil, Fin.val_zero, tolower]
    split_ifs <;> omega
  | cons x a ih =>
    intro b c
    rw [strcasecmp_step (x :: a) b, strcasecmp_step b c, strcasecmp_step (x :: a) c]
    have h1 := tolower_eq_zero_iff (b.headD 0).val
    have h2 := tolower_eq_zero_iff (c.headD 0).val
    have h3 := tolower_eq_zero_iff x.val
    have h4 := ih b.tail c.tail
    simp only [List.headD_cons, List.tail_cons]
    split_ifs <;> omega

theorem tolower_same_letter (x y : byte) (h : same_letter_up_to_case x y) :
    tolower x.val = tolower y.val := by
  unfold same_letter_up_to_case at h
  unfold tolower
  rcases h with h | h | h
  · rw [h]
  · split_ifs <;> omega
  · split_ifs <;> omega

theorem strcasecmp_of_differ_only_in_case (a b : std_string)
    (h : differ_only_in_case a b) : strcasecmp a b = 0 := by
  unfold differ_only_in_case at h
  induction h with
  | nil => simp [strcasecmp, tolower]
  | cons hxy _ ih =>
    have h1 := tolower_same_letter _ _ hxy
    simp [strcasecmp, h1, ih]

/-- The comparator is false both ways exactly when `strcasecmp` gives `0`. -/
theorem incomparable_iff (a b : std_string) :
    (case_insensitive_compare_func a b = false ∧ case_insensitive_compare_func b a = false) ↔
      strcasecmp a b = 0 := by
  have h := strcasecmp_swap a b
  simp only [case_insensitive_compare_func, decide_eq_false_iff_not]
  omega

/-- C9: `case_insensitive_compare_func` is a strict weak ordering on strings:
irreflexive, asymmetric, transitive, and incomparability (neither less than the
other) is transitive; two strings that differ only in ASCII letter case are
incomparable, so a `mimes_t` map treats them as one key. -/
theorem case_insensitive_compare_func_strict_weak_order :
    (∀ a, case_insensitive_compare_func a a = false) ∧
    (∀ a b, case_insensitive_compare_func a b = true →
      case_insensitive_compare_func b a = false) ∧
    (∀ a b c, case_insensitive_compare_func a b = true →
      case_insensitive_compare_func b c = true →
      case_insensitive_compare_func a c = true) ∧
    (∀ a b c,
      (case_insensitive_compare_func a b = false ∧
        case_insensitive_compare_func b a = false) →
      (case_insensitive_compare_func b c = false ∧
        case_insensitive_compare_func c b = false) →
      (case_insensitive_compare_func a c = false ∧
        case_insensitive_compare_func c a = false)) ∧
    (∀ a b, differ_only_in_case a b →
      case_insensitive_compare_func a b = false ∧
        case_insensitive_compare_func b a = false) := by
  refine ⟨?_, ?_, ?_, ?_, ?_⟩
  · intro a
    simp [case_insensitive_compare_func, strcasecmp_self]
  · intro a b h
    have hs := strcasecmp_swap a b
    simp only [case_insensitive_compare_func, decide_eq_true_eq] at h
    simp only [case_insensitive_compare_func, decide_eq_false_iff_not]
    omega
  · intro a b c h1 h2
    simp only [case_insensitive_compare_func, decide_eq_true_eq] at h1 h2 ⊢
    exact strcasecmp_trans_lt a b c h1 h2
  · intro a b c h1 h2
    rw [incomparable_iff] at h1 h2 ⊢
    exact strcasecmp_trans_eq a b c h1 h2
  · intro a b h
    rw [incomparable_iff]
    exact strcasecmp_of_differ_only_in_case a b h

/-! ## The byte buffer -/

theorem IsSafeSize_iff_of_no_wrap (b : BodyData) (addbytes : Nat)
    (h : b.lastpos + addbytes + 1 < 2 ^ 64) :
    b.IsSafeSize addbytes = true ↔ b.lastpos + addbytes + 1 ≤ b.bufsize := by
  have h1 : (b.lastpos + addbytes + 1) % SIZE_MOD = b.lastpos + addbytes + 1 :=
    Nat.mod_eq_of_lt (by simpa [SIZE_MOD] using h)
  unfold BodyData.IsSafeSize
  rw [h1]
  by_cases hc : b.lastpos + addbytes + 1 > b.bufsize
  · rw [if_pos hc]
    simp only [Bool.false_eq_true, false_iff]
    omega
  · rw [if_neg hc]
    simp only [true_iff]
    omega

theorem BodyHolds_new : BodyHolds BodyData.new [] :=
  ⟨rfl, Or.inl ⟨rfl, rfl, rfl⟩⟩

/-- The copy step of `Append` on storage that has room. -/
theorem copy_holds (t content block : List byte) (hfit : content.length + block.length + 1 ≤ t.length)
    (htake : t.take content.length = content) :
    (t.take content.length ++ block ++ [0] ++
        t.drop (content.length + block.length + 1)).length = t.length ∧
    (t.take content.length ++ block ++ [0] ++
        t.drop (content.length + block.length + 1)).take (content ++ block).length =
      content ++ block ∧
    (t.take content.length ++ block ++ [0] ++
        t.drop (content.length + block.length + 1))[(content ++ block).length]? = some 0 := by
  rw [htake]
  refine ⟨?_, ?_, ?_⟩
  · simp only [List.length_append, List.length_singleton, List.length_drop]
    omega
  · rw [List.append_assoc (content ++ block)]
    exact List.take_left' rfl
  · rw [List.append_assoc (content ++ block)]
    rw [List.getElem?_append_right (Nat.le_refl _)]
    simp

theorem copy_step_holds (b : BodyData) (t content block : List byte)
    (hl : b.lastpos = content.length) (hlen : t.length = b.bufsize)
    (hbuf : b.bufsize < 2 ^ 64) (htake : t.take content.length = content)
    (hfit : b.lastpos + block.length + 1 ≤ t.length) :
    BodyHolds
      { b with
        text := some (t.take b.lastpos ++ block ++ [0] ++
          t.drop (b.lastpos + block.length + 1))
        lastpos := (b.lastpos + block.length) % SIZE_MOD }
      (content ++ block) := by
  rw [hl] at hfit ⊢
  obtain ⟨h1, h2, h3⟩ := copy_holds t content block hfit htake
  have hmod : (content.length + block.length) % SIZE_MOD = content.length + block.length :=
    Nat.mod_eq_of_lt (by simp only [SIZE_MOD]; omega)
  refine ⟨?_, Or.inr ⟨_, rfl, ?_, hbuf, ?_, h2, h3⟩⟩
  · simp only [hmod, List.length_append]
  · simp only [h1, hlen]
  · simp only [List.length_append]
    omega

theorem resized_storage (old : List byte) (newsize n : Nat) (hn : n ≤ newsize)
    (hold : n ≤ old.length) :
    ((old ++ List.replicate newsize (0 : byte)).take newsize).length = newsize ∧
    ((old ++ List.replicate newsize (0 : byte)).take newsize).take n = old.take n := by
  refine ⟨?_, ?_⟩
  · simp only [List.length_take, List.length_append, List.length_replicate]
    omega
  · rw [List.take_take, Nat.min_eq_left hn]
    exact List.take_append_of_le_length hold

/-- One `Append` on a buffer that holds `content`: either it returns true and
the buffer holds `content ++ block`, or it returns false and nothing changed. -/
theorem Append_step (realloc_ok : Nat → Bool) (b b1 : BodyData) (content block : List byte)
    (r : Bool) (hinv : BodyHolds b content)
    (h : BodyData.Append realloc_ok b block = some (b1, r)) :
    (r = true ∧ BodyHolds b1 (content ++ block)) ∨ (r = false ∧ b1 = b) := by
  obtain ⟨hl, hst⟩ := hinv
  unfold BodyData.Append BodyData.Resize at h
  by_cases hsafe : b.IsSafeSize block.length = true
  · simp only [hsafe, if_true] at h
    rcases hst with ⟨hnone, _, _⟩ | ⟨t, ht, hlen, hbuf, _, htake, _⟩
    · simp [hnone] at h
    · simp only [ht] at h
      by_cases hfit : b.lastpos + block.length + 1 ≤ t.length
      · rw [if_pos hfit] at h
        simp only [Option.some.injEq, Prod.mk.injEq] at h
        obtain ⟨hb1, hr⟩ := h
        left
        refine ⟨hr.symm, ?_⟩
        rw [← hb1]
        exact copy_step_holds b t content block hl hlen hbuf htake hfit
      · rw [if_neg hfit] at h
        simp at h
  · simp only [hsafe, Bool.false_eq_true, if_false] at h
    by_cases hre : realloc_ok (max ((b.lastpos + block.length + 1) % SIZE_MOD)
        ((b.bufsize * 2) % SIZE_MOD)) = true
    · simp only [hre, if_true] at h
      generalize hN : max ((b.lastpos + block.length + 1) % SIZE_MOD)
        ((b.bufsize * 2) % SIZE_MOD) = newsize at h
      have hNlt : newsize < 2 ^ 64 := by
        have h1 : (b.lastpos + block.length + 1) % SIZE_MOD < 2 ^ 64 :=
          Nat.mod_lt _ (by simp [SIZE_MOD])
        have h2 : (b.bufsize * 2) % SIZE_MOD < 2 ^ 64 :=
          Nat.mod_lt _ (by simp [SIZE_MOD])
        rw [← hN]
        exact max_lt h1 h2
      by_cases hfit : b.lastpos + block.length + 1 ≤
          (((b.text.getD []) ++ List.replicate newsize (0 : byte)).take newsize).length
      · rw [if_pos hfit] at h
        simp only [Option.some.injEq, Prod.mk.injEq] at h
        obtain ⟨hb1, hr⟩ := h
        left
        refine ⟨hr.symm, ?_⟩
        rw [← hb1]
        have hold : content.length ≤ (b.text.getD []).length := by
          rcases hst with ⟨_, _, hc⟩ | ⟨t, ht, hlen, _, hc, _, _⟩
          · simp [hc]
          · simp only [ht, Option.getD_some]
            omega
        have htk : (b.text.getD []).take content.length = content := by
          rcases hst with ⟨_, _, hc⟩ | ⟨t, ht, _, _, _, htake, _⟩
          · simp [hc]
          · simpa only [ht, Option.getD_some] using htake
        have hlenN : (((b.text.getD []) ++ List.replicate newsize (0 : byte)).take
            newsize).length = newsize := by
          simp only [List.length_take, List.length_append, List.length_replicate]
          omega
        have hres := resized_storage (b.text.getD []) newsize content.length
          (by rw [hlenN] at hfit; omega) hold
        exact copy_step_holds
          { b with
            text := some (((b.text.getD []) ++ List.replicate newsize 0).take newsize)
            bufsize := newsize }
          _ content block hl hres.1 hNlt (hres.2.trans htk) hfit
      · rw [if_neg hfit] at h
        simp at h
    · simp only [hre, Bool.false_eq_true, if_false, Option.some.injEq, Prod.mk.injEq] at h
      right
      exact ⟨h.2.symm, h.1.symm⟩

theorem AppendAll_holds (realloc_ok : Nat → Bool) (blocks : List (List byte)) :
    ∀ (b b1 : BodyData) (content : List byte), BodyHolds b content →
      BodyData.AppendAll realloc_ok b blocks = some b1 →
      BodyHolds b1 (content ++ blocks.flatten) := by
  induction blocks with
  | nil =>
    intro b b1 content hinv h
    simp only [BodyData.AppendAll, Option.some.injEq] at h
    simpa [← h] using hinv
  | cons block rest ih =>
    intro b b1 content hinv h
    unfold BodyData.AppendAll at h
    cases hA : BodyData.Append realloc_ok b block with
    | none => simp [hA] at h
    | some res =>
      obtain ⟨b2, r⟩ := res
      cases r with
      | false => simp [hA] at h
      | true =>
        simp only [hA] at h
        rcases Append_step realloc_ok b b2 content block true hinv hA with ⟨_, h2⟩ | ⟨h2, _⟩
        · have := ih b2 b1 (content ++ block) h2 h
          simpa [List.flatten_cons, List.append_assoc] using this
        · exact absurd h2 (by simp)

theorem run_ops_holds (realloc_ok : Nat → Bool) (ops : List BodyOp) :
    ∀ (b b1 : BodyData) (content : List byte), BodyHolds b content →
      run_ops realloc_ok b ops = some b1 → ∃ content1, BodyHolds b1 content1 := by
  induction ops with
  | nil =>
    intro b b1 content hinv h
    simp only [run_ops, Option.some.injEq] at h
    exact ⟨content, h ▸ hinv⟩
  | cons op rest ih =>
    intro b b1 content hinv h
    cases op with
    | append block =>
      unfold run_ops at h
      cases hA : BodyData.Append realloc_ok b block with
      | none => simp [hA] at h
      | some res =>
        obtain ⟨b2, r⟩ := res
        simp only [hA] at h
        rcases Append_step realloc_ok b b2 content block r hinv hA with ⟨_, h2⟩ | ⟨_, h2⟩
        · exact ih b2 b1 _ h2 h
        · exact ih b2 b1 content (h2 ▸ hinv) h
    | clear =>
      unfold run_ops at h
      exact ih b.Clear b1 [] BodyHolds_new h

/-- When the allocator grants every request and the bytes held, the block and
the terminator fit in `size_t`, `Append` returns true. -/
theorem Append_returns_true (realloc_ok : Nat → Bool) (hre : ∀ n, realloc_ok n = true)
    (b : BodyData) (content block : List byte) (hinv : BodyHolds b content)
    (hsz : content.length + block.length + 1 < 2 ^ 64) :
    ∃ b1, BodyData.Append realloc_ok b block = some (b1, true) := by
  obtain ⟨hl, hst⟩ := hinv
  have hnw : b.lastpos + block.length + 1 < 2 ^ 64 := by rw [hl]; exact hsz
  have hmod : (b.lastpos + block.length + 1) % SIZE_MOD = b.lastpos + block.length + 1 :=
    Nat.mod_eq_of_lt (by simpa [SIZE_MOD] using hnw)
  unfold BodyData.Append BodyData.Resize
  by_cases hsafe : b.IsSafeSize block.length = true
  · have hfit := (IsSafeSize_iff_of_no_wrap b block.length hnw).mp hsafe
    simp only [hsafe, if_true]
    rcases hst with ⟨_, hz, _⟩ | ⟨t, ht, hlen, _, _, _, _⟩
    · omega
    · simp only [ht]
      rw [if_pos (by omega)]
      exact ⟨_, rfl⟩
  · simp only [hsafe, Bool.false_eq_true, if_false, hre, if_true]
    rw [if_pos]
    · exact ⟨_, rfl⟩
    · simp only [List.length_take, List.length_append, List.length_replicate, hmod]
      have := Nat.le_max_left (b.lastpos + block.length + 1) ((b.bufsize * 2) % SIZE_MOD)
      omega

theorem AppendAll_succeeds (realloc_ok : Nat → Bool) (hre : ∀ n, realloc_ok n = true)
    (blocks : List (List byte)) :
    ∀ (b : BodyData) (content : List byte), BodyHolds b content →
      content.length + (blocks.map List.length).sum + 1 < 2 ^ 64 →
      ∃ b1, BodyData.AppendAll realloc_ok b blocks = some b1 := by
  induction blocks with
  | nil =>
    intro b content _ _
    exact ⟨b, rfl⟩
  | cons block rest ih =>
    intro b content hinv hsz
    simp only [List.map_cons, List.sum_cons] at hsz
    obtain ⟨b2, hA⟩ := Append_returns_true realloc_ok hre b content block hinv (by omega)
    rcases Append_step realloc_ok b b2 content block true hinv hA with ⟨_, h2⟩ | ⟨h2, _⟩
    · obtain ⟨b1, h1⟩ := ih b2 (content ++ block) h2
        (by simp only [List.length_append]; omega)
      exact ⟨b1, by simp only [BodyData.AppendAll, hA, h1]⟩
    · exact absurd h2 (by simp)

/-- C4: for every sequence of blocks appended to a freshly constructed buffer
with every `Append` returning true, `size()` is the sum of the block lengths
and the first `size()` bytes `str()` points to are the concatenation of the
blocks in append order, followed by the terminator; for the empty sequence
`size()` is `0` and `str()` is the empty string, not a null pointer. -/
theorem append_round_trip (realloc_ok : Nat → Bool) (blocks : List (List byte))
    (b : BodyData) (h : BodyData.AppendAll realloc_ok BodyData.new blocks = some b) :
    b.size = (blocks.map List.length).sum ∧
    (∃ t, b.str = some t ∧ t.take b.size = blocks.flatten ∧ t[b.size]? = some 0) ∧
    (BodyData.AppendAll realloc_ok BodyData.new [] = some BodyData.new ∧
      BodyData.new.size = 0 ∧ BodyData.new.str = some [0]) := by
  have hinv := AppendAll_holds realloc_ok blocks BodyData.new b [] BodyHolds_new h
  simp only [List.nil_append] at hinv
  obtain ⟨hl, hst⟩ := hinv
  refine ⟨?_, ?_, rfl, rfl, rfl⟩
  · simp only [BodyData.size, hl, List.length_flatten]
  · simp only [BodyData.size, hl]
    rcases hst with ⟨hnone, _, hc⟩ | ⟨t, ht, _, _, _, htake, hterm⟩
    · refine ⟨[0], by simp [BodyData.str, hnone], ?_, ?_⟩ <;> simp [hc]
    · exact ⟨t, by simp [BodyData.str, ht], htake, hterm⟩

/-- Witness for C4: the blocks `[1, 2]`, `[]`, `[3]` with an allocator that
grants every request. -/
theorem append_round_trip_witness :
    ∃ b, BodyData.AppendAll (fun _ => true) BodyData.new [[1, 2], [], [3]] = some b ∧
      b.size = 3 ∧ b.str = some [1, 2, 3, 0, 0, 0] ∧
      (b.size = (([[1, 2], [], [3]] : List (List byte)).map List.length).sum ∧
        (∃ t, b.str = some t ∧ t.take b.size = ([[1, 2], [], [3]] : List (List byte)).flatten ∧
          t[b.size]? = some 0) ∧
        (BodyData.AppendAll (fun _ => true) BodyData.new [] = some BodyData.new ∧
          BodyData.new.size = 0 ∧ BodyData.new.str = some [0])) :=
  ⟨⟨some [1, 2, 3, 0, 0, 0], 3, 6⟩, by decide, rfl, rfl,
    append_round_trip (fun _ => true) [[1, 2], [], [3]] ⟨some [1, 2, 3, 0, 0, 0], 3, 6⟩
      (by decide)⟩

/-- C2 (counterexample): the freshly constructed buffer has `bufsize = 0` and
`lastpos = 0`, so `bufsize >= lastpos + 1` fails: no storage, and no terminator
byte, exists yet. -/
theorem fresh_buffer_has_no_terminator_margin :
    ¬ (BodyData.new.bufsize ≥ BodyData.new.lastpos + 1) := by
  decide

/-- C2 (amended): every state reachable from construction by `Append` and
`Clear` calls either holds no storage (`text = NULL`, `bufsize = 0`,
`lastpos = 0`: the fresh or cleared buffer) or has storage with
`bufsize >= lastpos + 1`. -/
theorem capacity_exceeds_length_once_allocated (realloc_ok : Nat → Bool)
    (ops : List BodyOp) (b : BodyData)
    (h : run_ops realloc_ok BodyData.new ops = some b) :
    (b.text = none ∧ b.bufsize = 0 ∧ b.lastpos = 0) ∨
    (b.text ≠ none ∧ b.bufsize ≥ b.lastpos + 1) := by
  obtain ⟨content, hl, hst⟩ := run_ops_holds realloc_ok ops BodyData.new b [] BodyHolds_new h
  rcases hst with ⟨hnone, hz, hc⟩ | ⟨t, ht, _, _, hcap, _, _⟩
  · left
    exact ⟨hnone, hz, by simp [hl, hc]⟩
  · right
    refine ⟨by simp [ht], ?_⟩
    omega

/-- Witness for C2 (amended): append two bytes, clear, append one byte, with an
allocator that grants every request. -/
theorem capacity_exceeds_length_once_allocated_witness :
    ∃ b, run_ops (fun _ => true) BodyData.new
        [BodyOp.append [1, 2], BodyOp.clear, BodyOp.append [3]] = some b ∧
      b = ⟨some [3, 0], 1, 2⟩ ∧
      ((b.text = none ∧ b.bufsize = 0 ∧ b.lastpos = 0) ∨
        (b.text ≠ none ∧ b.bufsize ≥ b.lastpos + 1)) :=
  ⟨⟨some [3, 0], 1, 2⟩, by decide, rfl,
    capacity_exceeds_length_once_allocated (fun _ => true)
      [BodyOp.append [1, 2], BodyOp.clear, BodyOp.append [3]] ⟨some [3, 0], 1, 2⟩ (by decide)⟩

/-! ## The scheduler registries -/

theorem mem_keys_assign (m : s3fscurlmap_t) (h c x : Nat) :
    x ∈ map_keys (map_assign m h c) ↔ x ∈ map_keys m ∨ x = h := by
  unfold map_assign
  by_cases hm : h ∈ map_keys m
  · rw [if_pos hm]
    have hkeys : map_keys (m.map (fun e => if e.1 = h then (h, c) else e)) = map_keys m := by
      unfold map_keys
      rw [List.map_map]
      apply List.map_congr_left
      intro e _
      by_cases he : e.1 = h
      · simp [he]
      · simp [he]
    rw [hkeys]
    constructor
    · exact Or.inl
    · rintro (hx | hx)
      · exact hx
      · rw [hx]
        exact hm
  · rw [if_neg hm]
    simp [map_keys]

theorem length_assign_le (m : s3fscurlmap_t) (h c : Nat) :
    (map_assign m h c).length ≤ m.length + 1 := by
  unfold map_assign
  split_ifs <;> simp

theorem mem_keys_erase (m : s3fscurlmap_t) (h x : Nat) :
    x ∈ map_keys (map_erase m h) ↔ x ∈ map_keys m ∧ x ≠ h := by
  unfold map_keys map_erase
  constructor
  · intro hx
    obtain ⟨e, he, hex⟩ := List.mem_map.mp hx
    obtain ⟨hem, hp⟩ := List.mem_filter.mp he
    have hne : e.1 ≠ h := by simpa using hp
    exact ⟨List.mem_map.mpr ⟨e, hem, hex⟩, by rw [← hex]; exact hne⟩
  · rintro ⟨hx, hne⟩
    obtain ⟨e, hem, hex⟩ := List.mem_map.mp hx
    refine List.mem_map.mpr ⟨e, List.mem_filter.mpr ⟨hem, ?_⟩, hex⟩
    rw [← hex] at hne
    simpa using hne

theorem length_erase_le (m : s3fscurlmap_t) (h : Nat) :
    (map_erase m h).length ≤ m.length :=
  List.length_filter_le _ m

theorem ok_register (max_multireq : Int) (s : S3fsMultiCurl) (h c : Nat)
    (hs : registry_ok max_multireq s) : registry_ok max_multireq (s.register h c) := by
  refine ⟨?_, hs.2⟩
  intro x hx
  exact (mem_keys_assign s.cMap_all h c x).mpr (Or.inl (hs.1 x hx))

theorem ok_promote (max_multireq : Int) (s : S3fsMultiCurl) (h c : Nat)
    (hs : registry_ok max_multireq s) (hall : h ∈ map_keys s.cMap_all) :
    registry_ok max_multireq (s.promote max_multireq h c) := by
  unfold S3fsMultiCurl.promote
  by_cases hlt : (s.cMap_req.length : Int) < max_multireq
  · rw [if_pos hlt]
    refine ⟨?_, ?_⟩
    · intro x hx
      rcases (mem_keys_assign s.cMap_req h c x).mp hx with hx1 | hx1
      · exact hs.1 x hx1
      · rw [hx1]
        exact hall
    · have := length_assign_le s.cMap_req h c
      show ((map_assign s.cMap_req h c).length : Int) ≤ max_multireq
      omega
  · rw [if_neg hlt]
    exact hs

theorem ok_promote_next (max_multireq : Int) (s : S3fsMultiCurl)
    (hs : registry_ok max_multireq s) :
    registry_ok max_multireq (s.promote_next max_multireq) := by
  unfold S3fsMultiCurl.promote_next
  cases hb : s.cMap_all.filter (fun e => decide (e.1 ∉ map_keys s.cMap_req)) with
  | nil => exact hs
  | cons e rest =>
    have hmem : e ∈ s.cMap_all.filter (fun e => decide (e.1 ∉ map_keys s.cMap_req)) := by
      rw [hb]
      exact List.mem_cons_self e rest
    have hall : e.1 ∈ map_keys s.cMap_all :=
      List.mem_map.mpr ⟨e, (List.mem_filter.mp hmem).1, rfl⟩
    exact ok_promote max_multireq s e.1 e.2 hs hall

theorem ok_erase_req (max_multireq : Int) (s : S3fsMultiCurl) (h : Nat)
    (hs : registry_ok max_multireq s) :
    registry_ok max_multireq { s with cMap_req := map_erase s.cMap_req h } := by
  refine ⟨?_, ?_⟩
  · intro x hx
    exact hs.1 x ((mem_keys_erase s.cMap_req h x).mp hx).1
  · have := length_erase_le s.cMap_req h
    have := hs.2
    show ((map_erase s.cMap_req h).length : Int) ≤ max_multireq
    omega

theorem ok_erase_both (max_multireq : Int) (s : S3fsMultiCurl) (h : Nat)
    (hs : registry_ok max_multireq s) :
    registry_ok max_multireq
      { cMap_all := map_erase s.cMap_all h, cMap_req := map_erase s.cMap_req h } := by
  refine ⟨?_, (ok_erase_req max_multireq s h hs).2⟩
  intro x hx
  obtain ⟨hx1, hx2⟩ := (mem_keys_erase s.cMap_req h x).mp hx
  exact (mem_keys_erase s.cMap_all h x).mpr ⟨hs.1 x hx1, hx2⟩

theorem ok_retire_states (max_multireq : Int) (s : S3fsMultiCurl) (h : Nat) (o : Outcome)
    (hs : registry_ok max_multireq s) :
    ∀ s1 ∈ S3fsMultiCurl.retire_states max_multireq s h o, registry_ok max_multireq s1 := by
  have h1 := ok_erase_req max_multireq s h hs
  have h2 := ok_erase_both max_multireq s h hs
  intro s1 hmem
  cases o with
  | success =>
    simp only [S3fsMultiCurl.retire_states, List.mem_cons, List.mem_singleton,
      List.not_mem_nil, or_false] at hmem
    rcases hmem with e | e | e | e | e <;> rw [e]
    · exact h1
    · exact h2
    · exact h2
    · exact h2
    · exact ok_promote_next max_multireq _ h2
  | failure =>
    simp only [S3fsMultiCurl.retire_states, List.mem_cons, List.mem_singleton,
      List.not_mem_nil, or_false] at hmem
    rcases hmem with e | e | e | e | e <;> rw [e]
    · exact h1
    · exact h2
    · exact h2
    · exact h2
    · exact ok_promote_next max_multireq _ h2
  | retry h2c c2 =>
    have h3 := ok_register max_multireq _ h2c c2 h2
    have h4 := ok_promote max_multireq _ h2c c2 h3
      ((mem_keys_assign _ h2c c2 h2c).mpr (Or.inr rfl))
    simp only [S3fsMultiCurl.retire_states, List.mem_cons, List.mem_singleton,
      List.not_mem_nil, or_false] at hmem
    rcases hmem with e | e | e | e | e <;> rw [e]
    · exact h1
    · exact h2
    · exact h3
    · exact h4
    · exact ok_promote_next max_multireq _ h4

theorem getLastD_ok {α : Type} (P : α → Prop) (l : List α) (d : α)
    (hl : ∀ x ∈ l, P x) (hd : P d) : P (l.getLastD d) := by
  induction l generalizing d with
  | nil => exact hd
  | cons a rest ih =>
    rw [List.getLastD_cons]
    exact ih a (fun x hx => hl x (List.mem_cons_of_mem a hx)) (hl a (List.mem_cons_self a rest))

theorem ok_Request_states (max_multireq : Int) (completions : List (Nat × Outcome)) :
    ∀ s, registry_ok max_multireq s →
      ∀ s1 ∈ S3fsMultiCurl.Request_states max_multireq s completions,
        registry_ok max_multireq s1 := by
  induction completions with
  | nil =>
    intro s _ s1 hmem
    simp [S3fsMultiCurl.Request_states] at hmem
  | cons e rest ih =>
    intro s hs s1 hmem
    obtain ⟨h, o⟩ := e
    unfold S3fsMultiCurl.Request_states at hmem
    by_cases hall : s.cMap_all = []
    · simp [hall] at hmem
    · rw [if_neg hall] at hmem
      by_cases hact : h ∈ map_keys s.cMap_req
      · rw [if_pos hact] at hmem
        rcases List.mem_append.mp hmem with hm | hm
        · exact ok_retire_states max_multireq s h o hs s1 hm
        · refine ih _ ?_ s1 hm
          exact getLastD_ok _ _ s (ok_retire_states max_multireq s h o hs) hs
      · rw [if_neg hact] at hmem
        exact ih s hs s1 hmem

theorem ok_call_states (max_multireq : Int) (s : S3fsMultiCurl) (c : Call)
    (hs : registry_ok max_multireq s) :
    ∀ s1 ∈ call_states max_multireq s c, registry_ok max_multireq s1 := by
  intro s1 hmem
  cases c with
  | submit h c =>
    have h1 := ok_register max_multireq s h c hs
    simp only [call_states, List.mem_cons, List.mem_singleton, List.not_mem_nil,
      or_false] at hmem
    rcases hmem with e | e <;> rw [e]
    · exact h1
    · exact ok_promote max_multireq _ h c h1 ((mem_keys_assign _ h c h).mpr (Or.inr rfl))
  | request completions =>
    exact ok_Request_states max_multireq completions s hs s1 hmem

theorem ok_observed (max_multireq : Int) (calls : List Call) :
    ∀ s, registry_ok max_multireq s →
      ∀ s1 ∈ observed max_multireq s calls, registry_ok max_multireq s1 := by
  induction calls with
  | nil =>
    intro s hs s1 hmem
    simp only [observed, List.mem_singleton] at hmem
    rw [hmem]
    exact hs
  | cons c rest ih =>
    intro s hs s1 hmem
    have hc := ok_call_states max_multireq s c hs
    simp only [observed, List.mem_cons, List.mem_append] at hmem
    rcases hmem with e | hm | hm
    · rw [e]
      exact hs
    · exact hc s1 (List.mem_of_mem_dropLast hm)
    · exact ih _ (getLastD_ok _ _ s hc hs) s1 hm

/-- C5: with a bound `max_multireq >= 0`, in every state observed during any
sequence of `SetS3fsCurlObject` and `Request` calls on a new scheduler, every
handle in the active map `cMap_req` is also in `cMap_all`, and `cMap_req` has at
most `max_multireq` entries. -/
theorem scheduler_registry_invariant (max_multireq : Int) (hmax : 0 ≤ max_multireq)
    (calls : List Call) (s : S3fsMultiCurl)
    (hs : s ∈ observed max_multireq S3fsMultiCurl.new calls) :
    (∀ h ∈ map_keys s.cMap_req, h ∈ map_keys s.cMap_all) ∧
    (s.cMap_req.length : Int) ≤ max_multireq := by
  have h0 : registry_ok max_multireq S3fsMultiCurl.new :=
    ⟨fun h hh => by simp [S3fsMultiCurl.new, map_keys] at hh, by simpa [S3fsMultiCurl.new] using hmax⟩
  exact ok_observed max_multireq calls S3fsMultiCurl.new h0 s hs

/-- Witness for C5: `max_multireq = 2` and five submitted part requests.  The
state after the fifth submission has five registered and two active requests;
over the whole run, retry included, no observed state has more than two active
requests. -/
theorem scheduler_registry_invariant_witness :
    (0 : Int) ≤ 2 ∧
    (⟨[(1, 10), (2, 20), (3, 30), (4, 40), (5, 50)], [(1, 10), (2, 20)]⟩ : S3fsMultiCurl) ∈
      observed 2 S3fsMultiCurl.new five_parts_run ∧
    (observed 2 S3fsMultiCurl.new five_parts_run).all
      (fun s => decide (s.cMap_req.length ≤ 2)) = true ∧
    ((∀ h ∈ map_keys [(1, 10), (2, 20)],
        h ∈ map_keys [(1, 10), (2, 20), (3, 30), (4, 40), (5, 50)]) ∧
      (([(1, 10), (2, 20)] : s3fscurlmap_t).length : Int) ≤ 2) :=
  ⟨by decide, by decide, by decide,
    scheduler_registry_invariant 2 (by decide) five_parts_run
      ⟨[(1, 10), (2, 20), (3, 30), (4, 40), (5, 50)], [(1, 10), (2, 20)]⟩ (by decide)⟩

/-- C7: `filepart::clear`, for every descriptor state and either value of
`isfree`, yields exactly the default-constructed descriptor and leaves the
store of ETag lists (hence the list the descriptor referenced) unchanged;
clearing twice is the same as clearing once. -/
theorem filepart_clear_resets_and_frames (st : Store) (p : filepart) (isfree isfree2 : Bool) :
    filepart.clear st p isfree = (st, filepart.new) ∧
    (filepart.clear st p isfree).2 =
      { uploaded := false, etag := [], fd := -1, startpos := 0, size := -1,
        etaglist := none, etagpos := -1 } ∧
    (∀ a : Nat, (filepart.clear st p isfree).1[a]? = st[a]?) ∧
    filepart.clear (filepart.clear st p isfree).1 (filepart.clear st p isfree).2 isfree2 =
      filepart.clear st p isfree := by
  refine ⟨rfl, rfl, fun _ => rfl, rfl⟩

/-- C10: `IsSetAccessKeyId` is true exactly when both the access key id and
the secret access key are non-empty; if either is empty it is false. -/
theorem IsSetAccessKeyId_iff (keyId secret : std_string) :
    (IsSetAccessKeyId keyId secret = true ↔ keyId ≠ [] ∧ secret ≠ []) ∧
    IsSetAccessKeyId [] secret = false ∧ IsSetAccessKeyId keyId [] = false := by
  unfold IsSetAccessKeyId
  cases keyId <;> cases secret <;> simp

/-- C8 (counterexample): on a fresh buffer (`lastpos = 0`, `bufsize = 0`) the
call `IsSafeSize(2^64 - 1)` returns true, although `0 + (2^64 - 1) + 1 = 2^64`
does not fit in a capacity of `0`: the `size_t` sum has wrapped to `0`. -/
theorem IsSafeSize_wraps_at_size_max :
    BodyData.IsSafeSize BodyData.new (2 ^ 64 - 1) = true ∧
    ¬ (BodyData.new.lastpos + (2 ^ 64 - 1) + 1 ≤ BodyData.new.bufsize) := by
  refine ⟨?_, ?_⟩
  · simp [BodyData.IsSafeSize, BodyData.new, SIZE_MOD]
  · simp [BodyData.new]

/-- C8 (amended): for all values of `lastpos`, `bufsize` and `addbytes` whose
sum `lastpos + addbytes + 1` is below `2^64` (it does not wrap in `size_t`),
`IsSafeSize(addbytes)` returns true if and only if the used length plus
`addbytes` plus one terminator byte fits in the capacity,
`lastpos + addbytes + 1 <= bufsize`, and returns false otherwise. -/
theorem IsSafeSize_iff_fits_within_size_t (b : BodyData) (addbytes : Nat)
    (h : b.lastpos + addbytes + 1 < 2 ^ 64) :
    (b.IsSafeSize addbytes = true ↔ b.lastpos + addbytes + 1 ≤ b.bufsize) ∧
    (b.IsSafeSize addbytes = false ↔ b.bufsize < b.lastpos + addbytes + 1) := by
  have h1 := IsSafeSize_iff_of_no_wrap b addbytes h
  refine ⟨h1, ?_⟩
  cases hs : b.IsSafeSize addbytes with
  | true =>
    have := h1.mp hs
    simp only [Bool.true_eq_false, false_iff]
    omega
  | false =>
    have hn : ¬ (b.lastpos + addbytes + 1 ≤ b.bufsize) := fun hle => by
      have := h1.mpr hle
      rw [hs] at this
      exact absurd this (by simp)
    simp only [true_iff]
    omega

/-- Witness for C8 (amended): used length 5 and capacity 16; ten more bytes and
the terminator fill the capacity exactly. -/
theorem IsSafeSize_iff_fits_within_size_t_witness :
    (5 + 10 + 1 < 2 ^ 64) ∧
    ((BodyData.IsSafeSize ⟨none, 5, 16⟩ 10 = true ↔ 5 + 10 + 1 ≤ 16) ∧
      (BodyData.IsSafeSize ⟨none, 5, 16⟩ 10 = false ↔ 16 < 5 + 10 + 1)) :=
  ⟨by decide, IsSafeSize_iff_fits_within_size_t ⟨none, 5, 16⟩ 10 (by decide)⟩

end S3fs
